import Mathlib

/-!
Verification of the in-memory index data model and teardown logic of
virt-builder (builder/index-struct.c).

The C code is embedded shallowly.  Linked chains of `struct field` and
`struct section` become inductive types; every node carries a numeric
identity (its address in the C code) so that freeing can be observed.
The `free_section` / `free_field` routines return the list of events
they perform, in program order: reading a node's `next` link, calling
`free` on an owned text (which may be the null pointer), and calling
`free` on the node itself.  `free` applied to a null text is recorded
as an event whose `isDealloc` is false, matching C's `free(NULL)`
being a no-op.
-/

/-- One key/subkey/value entry of a section, as a chain.
`nil` is the null pointer terminating the chain; `cons` is a node at
address `id` whose owned texts are `key`, `subkey`, `value` (a text is
`none` when the pointer is null). Mirrors `struct field` as used by
builder/index-struct.c. -/
inductive FieldChain where
  | nil : FieldChain
  | cons (id : Nat) (key subkey value : Option String) (next : FieldChain) : FieldChain
deriving DecidableEq, Repr

/-- One named section owning a field chain, as a chain.  Mirrors
`struct section` as used by builder/index-struct.c. -/
inductive SectionChain where
  | nil : SectionChain
  | cons (id : Nat) (name : Option String) (fields : FieldChain) (next : SectionChain) : SectionChain
deriving DecidableEq, Repr

/-- The top-level parse context; its only attribute is the head of the
owned section chain (`parsed_index`). Mirrors `struct parse_context`. -/
structure parse_context where
  parsed_index : SectionChain
deriving DecidableEq, Repr

/-- Observable events of the teardown routines, in program order:
reading a node's `next` link, the four `free` calls on owned texts,
and the two `free` calls on nodes themselves. -/
inductive Event where
  | derefSecNext (id : Nat) : Event
  | derefFldNext (id : Nat) : Event
  | freeName (id : Nat) (t : Option String) : Event
  | freeKey (id : Nat) (t : Option String) : Event
  | freeSubkey (id : Nat) (t : Option String) : Event
  | freeValue (id : Nat) (t : Option String) : Event
  | freeSec (id : Nat) : Event
  | freeFld (id : Nat) : Event
deriving DecidableEq, Repr

/-- Whether an event actually returns memory to the allocator.
Reading a link deallocates nothing; `free` on a null text (`none`)
is a no-op in C; `free` on a node or on a present text deallocates. -/
def isDealloc : Event → Bool
  | Event.derefSecNext _ => false
  | Event.derefFldNext _ => false
  | Event.freeName _ t => t.isSome
  | Event.freeKey _ t => t.isSome
  | Event.freeSubkey _ t => t.isSome
  | Event.freeValue _ t => t.isSome
  | Event.freeSec _ => true
  | Event.freeFld _ => true

/-- Whether an event is the `free` of a section node. -/
def isFreeSec : Event → Bool
  | Event.freeSec _ => true
  | _ => false

/-- Whether an event is the `free` of a field node. -/
def isFreeFld : Event → Bool
  | Event.freeFld _ => true
  | _ => false

/-- Embedding of `free_field`: if the pointer is null, nothing happens;
otherwise read `field->next`, recurse on it, then free `field->key`,
`field->subkey`, `field->value`, then free the node.  The returned
list is the events in the order the C code performs them. -/
def free_field : FieldChain → List Event
  | FieldChain.nil => []
  | FieldChain.cons id key subkey value next =>
      Event.derefFldNext id ::
        (free_field next ++
          [Event.freeKey id key, Event.freeSubkey id subkey,
           Event.freeValue id value, Event.freeFld id])

/-- Embedding of `free_section`: if the pointer is null, nothing
happens; otherwise read `section->next`, recurse on it, then free
`section->name`, then free the field chain `section->fields`, then
free the node.  Event order follows the C statement order. -/
def free_section : SectionChain → List Event
  | SectionChain.nil => []
  | SectionChain.cons id name fields next =>
      Event.derefSecNext id ::
        (free_section next ++
          (Event.freeName id name ::
            (free_field fields ++ [Event.freeSec id])))

/-- Embedding of `parse_context_init`: `memset (context, 0, ...)`
makes every field of the struct zero, so `parsed_index` becomes the
null pointer.  The function allocates nothing and performs no events. -/
def parse_context_init (_ : parse_context) : parse_context × List Event :=
  (⟨SectionChain.nil⟩, [])

/-- Embedding of `parse_context_free`: calls `free_section` on
`context->parsed_index` and writes nothing back into the context, so
the context value is returned unchanged alongside the event trace. -/
def parse_context_free (context : parse_context) : parse_context × List Event :=
  (context, free_section context.parsed_index)

/-- Addresses of the field nodes of a field chain, in chain order. -/
def FieldChain.ids : FieldChain → List Nat
  | FieldChain.nil => []
  | FieldChain.cons id _ _ _ next => id :: next.ids

/-- Addresses of the section nodes of a section chain, in chain order. -/
def SectionChain.secIds : SectionChain → List Nat
  | SectionChain.nil => []
  | SectionChain.cons id _ _ next => id :: next.secIds

/-- Addresses of all field nodes hanging off a section chain. -/
def SectionChain.fldIds : SectionChain → List Nat
  | SectionChain.nil => []
  | SectionChain.cons _ _ fields next => fields.ids ++ next.fldIds

/-- Number of section nodes in a chain. -/
def SectionChain.numSections : SectionChain → Nat
  | SectionChain.nil => 0
  | SectionChain.cons _ _ _ next => next.numSections + 1

/-- Number of field nodes in a field chain. -/
def FieldChain.numFields : FieldChain → Nat
  | FieldChain.nil => 0
  | FieldChain.cons _ _ _ _ next => next.numFields + 1

/-- The per-section field counts of a section chain, in chain order. -/
def SectionChain.fieldCounts : SectionChain → List Nat
  | SectionChain.nil => []
  | SectionChain.cons _ _ fields next => fields.numFields :: next.fieldCounts

/-- A chain is well formed when all node addresses (sections and
fields together) are pairwise distinct: ownership is tree shaped, no
node sits on two chains. -/
def SectionChain.WF (c : SectionChain) : Prop :=
  (c.secIds ++ c.fldIds).Nodup

instance (c : SectionChain) : Decidable c.WF := by
  unfold SectionChain.WF; infer_instance

/-- Call-stack frames needed by `free_field` on a chain: even the call
on the null pointer occupies one frame; a node's frame stays live
while the recursive call on `next` runs. -/
def fldFrames : FieldChain → Nat
  | FieldChain.nil => 1
  | FieldChain.cons _ _ _ _ next => 1 + fldFrames next

/-- Call-stack frames needed by `free_section` on a chain: one frame
for the call itself, which stays live both during the recursive call
on `next` and during the later `free_field` call on the node's own
field chain. -/
def secFrames : SectionChain → Nat
  | SectionChain.nil => 1
  | SectionChain.cons _ _ fields next => 1 + max (secFrames next) (fldFrames fields)

/-- A chain of `n` sections with zero fields each, addresses `0..n-1`,
as in the thousand-section release scenario. -/
def mkChain : Nat → SectionChain
  | 0 => SectionChain.nil
  | n + 1 => SectionChain.cons n (some "s") FieldChain.nil (mkChain n)

/-- Modelled from the spec: the stack-safe iterative walk over a field
chain it describes as an acceptable alternative (capture `next`, free
the current node's owned texts and the node, advance to the captured
`next`).  Written as structural recursion on the chain, which is the
loop unrolled. -/
def iter_free_field : FieldChain → List Event
  | FieldChain.nil => []
  | FieldChain.cons id key subkey value next =>
      Event.derefFldNext id :: Event.freeKey id key :: Event.freeSubkey id subkey ::
        Event.freeValue id value :: Event.freeFld id :: iter_free_field next

/-- Modelled from the spec: the stack-safe iterative walk over a
section chain (capture `next`, free the current node's owned resources
and the node, advance).  Own-resource order inside a node follows the
code (`name`, then the field chain, then the node). -/
def iter_free_section : SectionChain → List Event
  | SectionChain.nil => []
  | SectionChain.cons id name fields next =>
      Event.derefSecNext id :: Event.freeName id name ::
        (iter_free_field fields ++ (Event.freeSec id :: iter_free_section next))

/-- A concrete field chain: two fields, as in the os-version scenario. -/
def demoFieldsA : FieldChain :=
  FieldChain.cons 10 (some "debian-9") none (some "x")
    (FieldChain.cons 11 (some "fedora-30") (some "arch") (some "x86_64") FieldChain.nil)

/-- A second concrete field chain with two fields. -/
def demoFieldsB : FieldChain :=
  FieldChain.cons 20 (some "k1") none (some "v1")
    (FieldChain.cons 21 (some "k2") none (some "v2") FieldChain.nil)

/-- A concrete section chain: two sections of two fields each. -/
def demoChain : SectionChain :=
  SectionChain.cons 0 (some "os-version") demoFieldsA
    (SectionChain.cons 1 (some "other") demoFieldsB SectionChain.nil)

/-- A concrete populated context over `demoChain`. -/
def demoCtx : parse_context := ⟨demoChain⟩

/-! ### Counting lemmas: how often each node is freed and dereferenced -/

lemma free_field_count_freeFld (f : FieldChain) (i : Nat) :
    (free_field f).count (Event.freeFld i) = f.ids.count i := by
  induction f with
  | nil => rfl
  | cons id key subkey value next ih =>
      simp [free_field, FieldChain.ids, List.count_append, List.count_cons, ih]

lemma free_field_count_derefFld (f : FieldChain) (i : Nat) :
    (free_field f).count (Event.derefFldNext i) = f.ids.count i := by
  induction f with
  | nil => rfl
  | cons id key subkey value next ih =>
      simp [free_field, FieldChain.ids, List.count_append, List.count_cons, ih]

lemma free_field_count_freeSec (f : FieldChain) (i : Nat) :
    (free_field f).count (Event.freeSec i) = 0 := by
  induction f with
  | nil => rfl
  | cons id key subkey value next ih =>
      simp [free_field, List.count_append, List.count_cons, ih]

lemma free_section_count_freeSec (c : SectionChain) (i : Nat) :
    (free_section c).count (Event.freeSec i) = c.secIds.count i := by
  induction c with
  | nil => rfl
  | cons id name fields next ih =>
      simp [free_section, SectionChain.secIds, List.count_append, List.count_cons, ih,
        free_field_count_freeSec]

lemma free_section_count_freeFld (c : SectionChain) (i : Nat) :
    (free_section c).count (Event.freeFld i) = c.fldIds.count i := by
  induction c with
  | nil => rfl
  | cons id name fields next ih =>
      simp [free_section, SectionChain.fldIds, List.count_append, List.count_cons, ih,
        free_field_count_freeFld, Nat.add_comm]

lemma free_field_count_derefSec (f : FieldChain) (i : Nat) :
    (free_field f).count (Event.derefSecNext i) = 0 := by
  induction f with
  | nil => rfl
  | cons id key subkey value next ih =>
      simp [free_field, List.count_append, List.count_cons, ih]

lemma free_section_count_derefSec (c : SectionChain) (i : Nat) :
    (free_section c).count (Event.derefSecNext i) = c.secIds.count i := by
  induction c with
  | nil => rfl
  | cons id name fields next ih =>
      simp [free_section, SectionChain.secIds, List.count_append, List.count_cons, ih,
        free_field_count_derefSec]

lemma free_section_count_derefFld (c : SectionChain) (i : Nat) :
    (free_section c).count (Event.derefFldNext i) = c.fldIds.count i := by
  induction c with
  | nil => rfl
  | cons id name fields next ih =>
      simp [free_section, SectionChain.fldIds, List.count_append, List.count_cons, ih,
        free_field_count_derefFld, Nat.add_comm]

lemma free_field_countP_isFreeFld (f : FieldChain) :
    (free_field f).countP isFreeFld = f.numFields := by
  induction f with
  | nil => rfl
  | cons id key subkey value next ih =>
      simp [free_field, FieldChain.numFields, List.countP_append, List.countP_cons, ih,
        isFreeFld]

lemma free_field_countP_isFreeSec (f : FieldChain) :
    (free_field f).countP isFreeSec = 0 := by
  induction f with
  | nil => rfl
  | cons id key subkey value next ih =>
      simp [free_field, List.countP_append, List.countP_cons, ih, isFreeSec]

lemma free_section_countP_isFreeSec (c : SectionChain) :
    (free_section c).countP isFreeSec = c.numSections := by
  induction c with
  | nil => rfl
  | cons id name fields next ih =>
      simp [free_section, SectionChain.numSections, List.countP_append, List.countP_cons,
        ih, isFreeSec, free_field_countP_isFreeSec]

lemma free_section_countP_isFreeFld (c : SectionChain) :
    (free_section c).countP isFreeFld = c.fieldCounts.sum := by
  induction c with
  | nil => rfl
  | cons id name fields next ih =>
      simp [free_section, SectionChain.fieldCounts, List.countP_append, List.countP_cons,
        ih, isFreeFld, free_field_countP_isFreeFld, Nat.add_comm]

/-! ### Structural lemmas: where sub-traces sit inside a trace -/

lemma free_section_next_sublist (id : Nat) (name : Option String)
    (fields : FieldChain) (next : SectionChain) :
    (free_section next).Sublist
      (free_section (SectionChain.cons id name fields next)) := by
  simp only [free_section]
  exact (List.sublist_append_left _ _).cons _

lemma free_field_sublist_free_section (id : Nat) (name : Option String)
    (fields : FieldChain) (next : SectionChain) :
    (free_field fields).Sublist
      (free_section (SectionChain.cons id name fields next)) := by
  simp only [free_section]
  exact ((((List.sublist_append_left _ _).cons _).trans
    (List.sublist_append_right _ _)).cons _)

lemma fld_deref_before_free (f : FieldChain) :
    ∀ i ∈ f.ids,
      [Event.derefFldNext i, Event.freeFld i].Sublist (free_field f) := by
  induction f with
  | nil => intro i hi; simp [FieldChain.ids] at hi
  | cons id key subkey value next ih =>
      intro i hi
      rcases (by simpa [FieldChain.ids] using hi : i = id ∨ i ∈ next.ids) with h | h
      · subst h
        simp only [free_field]
        exact List.Sublist.cons₂ _ (List.singleton_sublist.mpr (by simp))
      · exact ((ih i h).trans (List.sublist_append_left _ _)).cons _

lemma sec_deref_before_free (c : SectionChain) :
    ∀ i ∈ c.secIds,
      [Event.derefSecNext i, Event.freeSec i].Sublist (free_section c) := by
  induction c with
  | nil => intro i hi; simp [SectionChain.secIds] at hi
  | cons id name fields next ih =>
      intro i hi
      rcases (by simpa [SectionChain.secIds] using hi : i = id ∨ i ∈ next.secIds) with h | h
      · subst h
        simp only [free_section]
        exact List.Sublist.cons₂ _ (List.singleton_sublist.mpr (by simp))
      · exact ((ih i h).trans (List.sublist_append_left _ _)).cons _

lemma sec_fld_deref_before_free (c : SectionChain) :
    ∀ i ∈ c.fldIds,
      [Event.derefFldNext i, Event.freeFld i].Sublist (free_section c) := by
  induction c with
  | nil => intro i hi; simp [SectionChain.fldIds] at hi
  | cons id name fields next ih =>
      intro i hi
      rcases (by simpa [SectionChain.fldIds] using hi :
          i ∈ fields.ids ∨ i ∈ next.fldIds) with h | h
      · exact (fld_deref_before_free fields i h).trans
          (free_field_sublist_free_section id name fields next)
      · exact (ih i h).trans (free_section_next_sublist id name fields next)

/-! ### Size bookkeeping -/

lemma FieldChain.ids_length (f : FieldChain) : f.ids.length = f.numFields := by
  induction f with
  | nil => rfl
  | cons id key subkey value next ih => simp [FieldChain.ids, FieldChain.numFields, ih]

lemma SectionChain.secIds_length (c : SectionChain) :
    c.secIds.length = c.numSections := by
  induction c with
  | nil => rfl
  | cons id name fields next ih =>
      simp [SectionChain.secIds, SectionChain.numSections, ih]

lemma SectionChain.fieldCounts_length (c : SectionChain) :
    c.fieldCounts.length = c.numSections := by
  induction c with
  | nil => rfl
  | cons id name fields next ih =>
      simp [SectionChain.fieldCounts, SectionChain.numSections, ih]

lemma SectionChain.fldIds_length (c : SectionChain) :
    c.fldIds.length = c.fieldCounts.sum := by
  induction c with
  | nil => rfl
  | cons id name fields next ih =>
      simp [SectionChain.fldIds, SectionChain.fieldCounts, FieldChain.ids_length, ih]

lemma secFrames_mkChain (n : Nat) : secFrames (mkChain n) = n + 1 := by
  induction n with
  | zero => rfl
  | succ n ih => simp [mkChain, secFrames, fldFrames, ih]; omega

lemma free_section_mkChain_length (n : Nat) :
    (free_section (mkChain n)).length = 3 * n := by
  induction n with
  | zero => rfl
  | succ n ih => simp [mkChain, free_section, free_field, ih]; omega

lemma sum_of_all_eq (l : List Nat) (M : Nat) (h : ∀ k ∈ l, k = M) :
    l.sum = l.length * M := by
  induction l with
  | nil => simp
  | cons a l ih =>
      have ha : a = M := h a (by simp)
      have hl : l.sum = l.length * M := ih fun k hk => h k (by simp [hk])
      simp [ha, hl, Nat.succ_mul, Nat.add_comm]

/-! ### Claims -/

/-- C1: for every well-formed context owning a chain of N sections,
each owning M fields, releasing the context frees exactly N section
nodes and N times M field nodes, each node exactly once (every owned
node address is freed with multiplicity one, no other address is
freed at all). -/
theorem release_frees_each_node_exactly_once
    (ctx : parse_context) (N M : Nat)
    (hwf : ctx.parsed_index.WF)
    (hN : ctx.parsed_index.numSections = N)
    (hM : ∀ k ∈ ctx.parsed_index.fieldCounts, k = M) :
    (parse_context_free ctx).2.countP isFreeSec = N ∧
    (parse_context_free ctx).2.countP isFreeFld = N * M ∧
    (∀ i ∈ ctx.parsed_index.secIds,
        (parse_context_free ctx).2.count (Event.freeSec i) = 1) ∧
    (∀ i ∈ ctx.parsed_index.fldIds,
        (parse_context_free ctx).2.count (Event.freeFld i) = 1) ∧
    (∀ i, i ∉ ctx.parsed_index.secIds →
        (parse_context_free ctx).2.count (Event.freeSec i) = 0) ∧
    (∀ i, i ∉ ctx.parsed_index.fldIds →
        (parse_context_free ctx).2.count (Event.freeFld i) = 0) := by
  obtain ⟨c⟩ := ctx
  simp only [parse_context_free] at *
  have hsec : c.secIds.Nodup := List.Nodup.of_append_left hwf
  have hfld : c.fldIds.Nodup := List.Nodup.of_append_right hwf
  refine ⟨?_, ?_, ?_, ?_, ?_, ?_⟩
  · rw [free_section_countP_isFreeSec, hN]
  · rw [free_section_countP_isFreeFld,
      sum_of_all_eq c.fieldCounts M hM, SectionChain.fieldCounts_length, hN]
  · intro i hi
    rw [free_section_count_freeSec, List.count_eq_one_of_mem hsec hi]
  · intro i hi
    rw [free_section_count_freeFld, List.count_eq_one_of_mem hfld hi]
  · intro i hi
    rw [free_section_count_freeSec, List.count_eq_zero_of_not_mem hi]
  · intro i hi
    rw [free_section_count_freeFld, List.count_eq_zero_of_not_mem hi]

/-- Witness for C1 on a concrete context of two sections with two
fields each. -/
theorem release_frees_each_node_exactly_once_witness :
    demoCtx.parsed_index.WF ∧
    demoCtx.parsed_index.numSections = 2 ∧
    (∀ k ∈ demoCtx.parsed_index.fieldCounts, k = 2) ∧
    ((parse_context_free demoCtx).2.countP isFreeSec = 2 ∧
     (parse_context_free demoCtx).2.countP isFreeFld = 2 * 2 ∧
     (∀ i ∈ demoCtx.parsed_index.secIds,
         (parse_context_free demoCtx).2.count (Event.freeSec i) = 1) ∧
     (∀ i ∈ demoCtx.parsed_index.fldIds,
         (parse_context_free demoCtx).2.count (Event.freeFld i) = 1) ∧
     (∀ i, i ∉ demoCtx.parsed_index.secIds →
         (parse_context_free demoCtx).2.count (Event.freeSec i) = 0) ∧
     (∀ i, i ∉ demoCtx.parsed_index.fldIds →
         (parse_context_free demoCtx).2.count (Event.freeFld i) = 0)) :=
  ⟨by decide, by decide, by decide,
   release_frees_each_node_exactly_once demoCtx 2 2 (by decide) (by decide) (by decide)⟩

/-- C4: during release of a well-formed chain, every node's `next`
link is read exactly once and the node is freed exactly once, and the
read precedes the free in the event trace; hence no `next` link is
ever dereferenced after its node has been freed. -/
theorem release_derefs_link_before_freeing_node
    (c : SectionChain) (hwf : c.WF) :
    (∀ i ∈ c.secIds,
       (free_section c).count (Event.derefSecNext i) = 1 ∧
       (free_section c).count (Event.freeSec i) = 1 ∧
       [Event.derefSecNext i, Event.freeSec i].Sublist (free_section c)) ∧
    (∀ i ∈ c.fldIds,
       (free_section c).count (Event.derefFldNext i) = 1 ∧
       (free_section c).count (Event.freeFld i) = 1 ∧
       [Event.derefFldNext i, Event.freeFld i].Sublist (free_section c)) := by
  have hsec : c.secIds.Nodup := List.Nodup.of_append_left hwf
  have hfld : c.fldIds.Nodup := List.Nodup.of_append_right hwf
  constructor
  · intro i hi
    exact ⟨by rw [free_section_count_derefSec, List.count_eq_one_of_mem hsec hi],
      by rw [free_section_count_freeSec, List.count_eq_one_of_mem hsec hi],
      sec_deref_before_free c i hi⟩
  · intro i hi
    exact ⟨by rw [free_section_count_derefFld, List.count_eq_one_of_mem hfld hi],
      by rw [free_section_count_freeFld, List.count_eq_one_of_mem hfld hi],
      sec_fld_deref_before_free c i hi⟩

/-- Witness for C4 on the concrete two-section chain, projected at
section node 0 and field node 10. -/
theorem release_derefs_link_before_freeing_node_witness :
    demoChain.WF ∧
    ((free_section demoChain).count (Event.derefSecNext 0) = 1 ∧
     (free_section demoChain).count (Event.freeSec 0) = 1 ∧
     [Event.derefSecNext 0, Event.freeSec 0].Sublist (free_section demoChain)) ∧
    ((free_section demoChain).count (Event.derefFldNext 10) = 1 ∧
     (free_section demoChain).count (Event.freeFld 10) = 1 ∧
     [Event.derefFldNext 10, Event.freeFld 10].Sublist (free_section demoChain)) :=
  ⟨by decide,
   (release_derefs_link_before_freeing_node demoChain (by decide)).1 0 (by decide),
   (release_derefs_link_before_freeing_node demoChain (by decide)).2 10 (by decide)⟩

/-- C6: initializing any context produces the empty initial state: the
section chain is the terminator, and the operation performs no events
at all (in particular no allocation); being a total function of the
model it has no failure mode. -/
theorem init_yields_empty_state (ctx : parse_context) :
    (parse_context_init ctx).1.parsed_index = SectionChain.nil ∧
    (parse_context_init ctx).2 = [] :=
  ⟨rfl, rfl⟩

/-- C7: releasing a context that was initialized and never populated
performs no events at all, in particular zero deallocations of section
or field nodes. -/
theorem release_of_fresh_context_is_noop (ctx : parse_context) :
    (parse_context_free (parse_context_init ctx).1).2 = [] ∧
    (parse_context_free (parse_context_init ctx).1).2.countP isFreeSec = 0 ∧
    (parse_context_free (parse_context_init ctx).1).2.countP isFreeFld = 0 ∧
    (parse_context_free (parse_context_init ctx).1).2.countP isDealloc = 0 :=
  ⟨rfl, rfl, rfl, rfl⟩

/-- C9: the release entry point leaves the context value unchanged; in
particular `parsed_index` is not reset, so a populated context still
holds its old section pointer after release. -/
theorem release_leaves_parsed_index_unchanged (ctx : parse_context) :
    (parse_context_free ctx).1 = ctx ∧
    (ctx.parsed_index ≠ SectionChain.nil →
      (parse_context_free ctx).1.parsed_index ≠ SectionChain.nil) :=
  ⟨rfl, fun h => h⟩

/-- Witness for C9 on the concrete populated context. -/
theorem release_leaves_parsed_index_unchanged_witness :
    (parse_context_free demoCtx).1 = demoCtx ∧
    (parse_context_free demoCtx).1.parsed_index ≠ SectionChain.nil :=
  ⟨(release_leaves_parsed_index_unchanged demoCtx).1,
   (release_leaves_parsed_index_unchanged demoCtx).2 (by decide)⟩

/-- C3: releasing a non-empty field chain processes the head node in
this order: every event of releasing `next` precedes the free of
`key`; then `key`, `subkey`, `value` are freed in that order and the
node itself is freed last; releasing the terminator is a no-op. -/
theorem field_release_order (id : Nat) (key subkey value : Option String)
    (next : FieldChain) :
    (∀ e ∈ free_field next,
        [e, Event.freeKey id key].Sublist
          (free_field (FieldChain.cons id key subkey value next))) ∧
    [Event.freeKey id key, Event.freeSubkey id subkey, Event.freeValue id value,
      Event.freeFld id].Sublist
        (free_field (FieldChain.cons id key subkey value next)) ∧
    (free_field (FieldChain.cons id key subkey value next)).getLast?
      = some (Event.freeFld id) ∧
    free_field FieldChain.nil = [] := by
  refine ⟨?_, ?_, ?_, rfl⟩
  · intro e he
    simp only [free_field]
    have h1 : [e].Sublist (free_field next) := List.singleton_sublist.mpr he
    have h2 : [Event.freeKey id key].Sublist
        [Event.freeKey id key, Event.freeSubkey id subkey,
         Event.freeValue id value, Event.freeFld id] :=
      List.singleton_sublist.mpr (by simp)
    exact (h1.append h2).cons _
  · simp only [free_field]
    exact (List.sublist_append_right _ _).cons _
  · have hsh : free_field (FieldChain.cons id key subkey value next)
        = (Event.derefFldNext id ::
            (free_field next ++
              [Event.freeKey id key, Event.freeSubkey id subkey,
               Event.freeValue id value])) ++ [Event.freeFld id] := by
      simp [free_field]
    rw [hsh, List.getLast?_concat]

/-- Witness for C3 on a concrete two-field chain, projected at the
event freeing the second field's key. -/
theorem field_release_order_witness :
    Event.freeKey 11 (some "fedora-30")
        ∈ free_field (FieldChain.cons 11 (some "fedora-30") (some "arch")
            (some "x86_64") FieldChain.nil) ∧
    [Event.freeKey 11 (some "fedora-30"), Event.freeKey 10 (some "debian-9")].Sublist
      (free_field demoFieldsA) :=
  ⟨by decide,
   (field_release_order 10 (some "debian-9") none (some "x")
      (FieldChain.cons 11 (some "fedora-30") (some "arch") (some "x86_64")
        FieldChain.nil)).1
     (Event.freeKey 11 (some "fedora-30")) (by decide)⟩

/-- Counterexample to C2: on a one-section chain whose section (node
0) owns one field (node 10), the field chain is NOT released before
the section's name; the code frees the name first.  So the claimed
per-node order (next, then fields, then name, then node) is false. -/
theorem section_release_order_counterexample :
    ¬ [Event.freeFld 10, Event.freeName 0 (some "n")].Sublist
        (free_section (SectionChain.cons 0 (some "n")
          (FieldChain.cons 10 (some "k") none (some "v") FieldChain.nil)
          SectionChain.nil)) ∧
    [Event.freeName 0 (some "n"), Event.freeFld 10].Sublist
        (free_section (SectionChain.cons 0 (some "n")
          (FieldChain.cons 10 (some "k") none (some "v") FieldChain.nil)
          SectionChain.nil)) := by
  decide

/-- C2 amended: releasing a non-empty section chain processes the head
node in this order: every event of releasing the rest of the chain
precedes the free of the section's `name`; the `name` is freed before
every event of releasing the section's own field chain; the field
chain's events all precede the free of the section node, which comes
last. -/
theorem section_release_order (id : Nat) (name : Option String)
    (fields : FieldChain) (next : SectionChain) :
    (∀ e ∈ free_section next,
        [e, Event.freeName id name].Sublist
          (free_section (SectionChain.cons id name fields next))) ∧
    (∀ e ∈ free_field fields,
        [Event.freeName id name, e].Sublist
          (free_section (SectionChain.cons id name fields next))) ∧
    (∀ e ∈ free_field fields,
        [e, Event.freeSec id].Sublist
          (free_section (SectionChain.cons id name fields next))) ∧
    (free_section (SectionChain.cons id name fields next)).getLast?
      = some (Event.freeSec id) := by
  refine ⟨?_, ?_, ?_, ?_⟩
  · intro e he
    simp only [free_section]
    have h1 : [e].Sublist (free_section next) := List.singleton_sublist.mpr he
    have h2 : [Event.freeName id name].Sublist
        (Event.freeName id name :: (free_field fields ++ [Event.freeSec id])) :=
      List.singleton_sublist.mpr (by simp)
    exact (h1.append h2).cons _
  · intro e he
    simp only [free_section]
    have h1 : [e].Sublist (free_field fields ++ [Event.freeSec id]) :=
      List.singleton_sublist.mpr (List.mem_append_left _ he)
    exact ((List.Sublist.cons₂ _ h1).trans
      (List.sublist_append_right _ _)).cons _
  · intro e he
    simp only [free_section]
    have h1 : [e].Sublist (free_field fields) := List.singleton_sublist.mpr he
    have h2 : ([e] ++ [Event.freeSec id]).Sublist
        (free_field fields ++ [Event.freeSec id]) :=
      h1.append (List.Sublist.refl _)
    exact (((h2.cons (Event.freeName id name)).trans
      (List.sublist_append_right _ _)).cons _)
  · have hsh : free_section (SectionChain.cons id name fields next)
        = (Event.derefSecNext id ::
            (free_section next ++ (Event.freeName id name :: free_field fields)))
          ++ [Event.freeSec id] := by
      simp [free_section]
    rw [hsh, List.getLast?_concat]

/-- Witness for C2 amended, on the concrete two-section chain,
projected at the second section's node-free event (an event of the
head's rest-of-chain), at a field-key free of the head's own field
chain, and at the final node free. -/
theorem section_release_order_witness :
    Event.freeSec 1 ∈ free_section
        (SectionChain.cons 1 (some "other") demoFieldsB SectionChain.nil) ∧
    [Event.freeSec 1, Event.freeName 0 (some "os-version")].Sublist
        (free_section demoChain) ∧
    Event.freeKey 10 (some "debian-9") ∈ free_field demoFieldsA ∧
    [Event.freeName 0 (some "os-version"),
      Event.freeKey 10 (some "debian-9")].Sublist (free_section demoChain) ∧
    (free_section demoChain).getLast? = some (Event.freeSec 0) :=
  ⟨by decide,
   (section_release_order 0 (some "os-version") demoFieldsA
      (SectionChain.cons 1 (some "other") demoFieldsB SectionChain.nil)).1
     (Event.freeSec 1) (by decide),
   by decide,
   (section_release_order 0 (some "os-version") demoFieldsA
      (SectionChain.cons 1 (some "other") demoFieldsB SectionChain.nil)).2.1
     (Event.freeKey 10 (some "debian-9")) (by decide),
   (section_release_order 0 (some "os-version") demoFieldsA
      (SectionChain.cons 1 (some "other") demoFieldsB SectionChain.nil)).2.2.2⟩

/-- Counterexample to C5: the call-stack depth of the recursive
`free_section` IS proportional to the chain length: releasing the
1000-section chain takes 1001 frames, the 2000-section chain 2001,
so doubling the chain adds exactly 1000 frames. -/
theorem release_stack_growth_counterexample :
    secFrames (mkChain 1000) = 1001 ∧
    secFrames (mkChain 2000) = 2001 ∧
    secFrames (mkChain 2000) - secFrames (mkChain 1000) = 1000 := by
  have h1 := secFrames_mkChain 1000
  have h2 := secFrames_mkChain 2000
  exact ⟨h1, h2, by omega⟩

/-- C5 amended: releasing a context of n chained sections with zero
fields terminates (the trace is a finite list of exactly 3n events),
but the recursive `free_section` needs call-stack depth n + 1, which
grows in proportion to the chain length (1001 frames at n = 1000). -/
theorem release_terminates_with_linear_stack (n : Nat) :
    (free_section (mkChain n)).length = 3 * n ∧
    secFrames (mkChain n) = n + 1 :=
  ⟨free_section_mkChain_length n, secFrames_mkChain n⟩

lemma free_field_perm_iter (f : FieldChain) :
    (free_field f).Perm (iter_free_field f) := by
  induction f with
  | nil => exact List.Perm.refl _
  | cons id key subkey value next ih =>
      simp only [free_field, iter_free_field]
      refine List.Perm.cons _ ?_
      have h1 : (free_field next ++
          [Event.freeKey id key, Event.freeSubkey id subkey,
           Event.freeValue id value, Event.freeFld id]).Perm
          ([Event.freeKey id key, Event.freeSubkey id subkey,
            Event.freeValue id value, Event.freeFld id] ++ free_field next) :=
        List.perm_append_comm
      have h2 : ([Event.freeKey id key, Event.freeSubkey id subkey,
            Event.freeValue id value, Event.freeFld id] ++ free_field next).Perm
          ([Event.freeKey id key, Event.freeSubkey id subkey,
            Event.freeValue id value, Event.freeFld id] ++ iter_free_field next) :=
        List.Perm.append_left _ ih
      exact h1.trans h2

lemma free_section_perm_iter (c : SectionChain) :
    (free_section c).Perm (iter_free_section c) := by
  induction c with
  | nil => exact List.Perm.refl _
  | cons id name fields next ih =>
      simp only [free_section, iter_free_section]
      refine List.Perm.cons _ ?_
      have h0 : (free_section next ++
          (Event.freeName id name ::
            (free_field fields ++ [Event.freeSec id]))).Perm
          ((Event.freeName id name ::
            (free_field fields ++ [Event.freeSec id])) ++ free_section next) :=
        List.perm_append_comm
      have h1 : (Event.freeName id name ::
            (free_field fields ++ [Event.freeSec id])) ++ free_section next
          = Event.freeName id name ::
            (free_field fields ++ (Event.freeSec id :: free_section next)) := by
        simp
      have h2 : (free_field fields ++
            (Event.freeSec id :: free_section next)).Perm
          (iter_free_field fields ++ (Event.freeSec id :: iter_free_section next)) :=
        (free_field_perm_iter fields).append (List.Perm.cons _ ih)
      refine h0.trans ?_
      rw [h1]
      exact List.Perm.cons _ h2

/-- C8: on every well-formed chain the recursive teardown and the
iterative forward walk perform the same events with the same
multiplicities (they are permutations of one another): both free
exactly the same nodes and owned texts of the chain. -/
theorem recursive_and_iterative_release_equivalent
    (c : SectionChain) (_hwf : c.WF) :
    (free_section c).Perm (iter_free_section c) :=
  free_section_perm_iter c

/-- Witness for C8 on the concrete two-section chain. -/
theorem recursive_and_iterative_release_equivalent_witness :
    demoChain.WF ∧ (free_section demoChain).Perm (iter_free_section demoChain) :=
  ⟨by decide, recursive_and_iterative_release_equivalent demoChain (by decide)⟩

/-- C10: releasing a field whose optional `subkey` is absent is safe
and deallocates only what is present: the free of the absent `subkey`
occurs in the trace but deallocates nothing, and the deallocations of
the node are exactly its present `key`, its present `value` and the
node itself (after those of the rest of the chain). -/
theorem absent_subkey_release_is_noop (id : Nat) (key value : Option String)
    (next : FieldChain) (hk : key.isSome = true) (hv : value.isSome = true) :
    Event.freeSubkey id none
        ∈ free_field (FieldChain.cons id key none value next) ∧
    isDealloc (Event.freeSubkey id none) = false ∧
    (free_field (FieldChain.cons id key none value next)).filter isDealloc
      = (free_field next).filter isDealloc ++
        [Event.freeKey id key, Event.freeValue id value, Event.freeFld id] := by
  refine ⟨by simp [free_field], rfl, ?_⟩
  simp [free_field, List.filter_append, isDealloc, hk, hv]

/-- Witness for C10 on a concrete field with present key and value
and absent subkey. -/
theorem absent_subkey_release_is_noop_witness :
    (some "k" : Option String).isSome = true ∧
    (some "v" : Option String).isSome = true ∧
    (Event.freeSubkey 10 none
        ∈ free_field (FieldChain.cons 10 (some "k") none (some "v")
            FieldChain.nil) ∧
     isDealloc (Event.freeSubkey 10 none) = false ∧
     (free_field (FieldChain.cons 10 (some "k") none (some "v")
          FieldChain.nil)).filter isDealloc
       = (free_field FieldChain.nil).filter isDealloc ++
         [Event.freeKey 10 (some "k"), Event.freeValue 10 (some "v"),
          Event.freeFld 10]) :=
  ⟨rfl, rfl,
   absent_subkey_release_is_noop 10 (some "k") (some "v") FieldChain.nil rfl rfl⟩
